import Mathlib

/-!
Verification development for the spoditor pod-mutation engine.

Strings are modelled as `List Char`.  Go `int` values are modelled as `Int`
(the claims under study never reach the 64-bit boundary, and `strconv.Atoi`
is modelled as the unbounded decimal value of a digit string).  Go maps are
modelled as association lists in insertion order; Go map iteration order,
which is unspecified, is modelled as insertion order.
-/

namespace Spoditor

/-! ## Decimal digits: `strconv.Atoi` / `strconv.Itoa` on digit strings -/

/-- Numeric value of a decimal digit string, most significant digit first.
Models `strconv.Atoi` restricted to all-digit inputs (no sign, unbounded). -/
def natOfDigits (ds : List Char) : Nat :=
  ds.foldl (fun a c => 10 * a + (c.toNat - 48)) 0

/-- The decimal digit character for a value below ten. -/
def decDigit (n : Nat) : Char :=
  match n with
  | 0 => '0' | 1 => '1' | 2 => '2' | 3 => '3' | 4 => '4'
  | 5 => '5' | 6 => '6' | 7 => '7' | 8 => '8' | 9 => '9'
  | _ => '*'

/-- Fuel-driven digit printer; fuel is consumed once per division by 10. -/
def natToDigitsAux : Nat → Nat → List Char → List Char
  | 0, _, acc => acc
  | fuel + 1, n, acc =>
    if n < 10 then decDigit n :: acc
    else natToDigitsAux fuel (n / 10) (decDigit (n % 10) :: acc)

/-- Decimal digit string of `n`, models `strconv.Itoa` on non-negative values. -/
def natToDigits (n : Nat) : List Char :=
  natToDigitsAux (n + 1) n []

/-- Models `strconv.Itoa` on Go `int` values. -/
def intToChars (i : Int) : List Char :=
  if i < 0 then '-' :: natToDigits (-i).toNat else natToDigits i.toNat

/-- `strconv.Atoi` result on a digit-only string, as a Go `int`. -/
def atoiDigits (ds : List Char) : Int :=
  Int.ofNat (natOfDigits ds)

/-! ## Ordinal qualifier matcher

Shallow embedding of `CommonPodQualifier` from
`internal/annotation/annotations.go`.  The four anchored regular expressions
are encoded as decidable structural checks:
`^\d+-\d+$`, `^\d+$`, `^\d+-$`, `^-\d+$`. -/

/-- Matches the anchored pattern digits, hyphen, digits (`rangeRegex`). -/
def matchRange (q : List Char) : Bool :=
  let a := q.takeWhile Char.isDigit
  match q.dropWhile Char.isDigit with
  | c :: b => !a.isEmpty && c = '-' && !b.isEmpty && b.all Char.isDigit
  | [] => false

/-- Matches the anchored pattern of one digit run (`exactNumberRegex`). -/
def matchExact (q : List Char) : Bool :=
  !q.isEmpty && q.all Char.isDigit

/-- Matches digits followed by a final hyphen (`lowerBoundRegex`). -/
def matchLower (q : List Char) : Bool :=
  let a := q.takeWhile Char.isDigit
  let r := q.dropWhile Char.isDigit
  !a.isEmpty && r = ['-']

/-- Matches a leading hyphen followed by digits (`upperBoundRegex`). -/
def matchUpper (q : List Char) : Bool :=
  match q with
  | c :: b => c = '-' && !b.isEmpty && b.all Char.isDigit
  | [] => false

/-- Embedding of `CommonPodQualifier` from `internal/annotation/annotations.go`:
empty qualifier always matches; then the range, exact, lower-bound and
upper-bound forms are tried in the order of the source; anything else is
false.  `strings.Split(q, "-")` on a string matched by `rangeRegex` yields
exactly the digit run before and after the hyphen, which is how the two
bounds are computed here. -/
def commonPodQualifier (ordinal : Int) (qualifier : List Char) : Bool :=
  if qualifier = [] then true
  else if matchRange qualifier then
    let lo := atoiDigits (qualifier.takeWhile Char.isDigit)
    let hi := atoiDigits ((qualifier.dropWhile Char.isDigit).drop 1)
    decide (lo ≤ ordinal) && decide (ordinal ≤ hi)
  else if matchExact qualifier then
    decide (ordinal = atoiDigits qualifier)
  else if matchLower qualifier then
    decide (atoiDigits qualifier.dropLast ≤ ordinal)
  else if matchUpper qualifier then
    decide (ordinal ≤ atoiDigits (qualifier.drop 1))
  else false

/-! ## The qualifier grammar, stated independently of the matcher

`splitOnChar` and `grammarForm` render the four qualifier forms of the
specification (empty, N, N-M, N-, -M) by splitting the string on hyphens,
a decomposition taken from the spec text rather than from the matcher code. -/

/-- Split a character list on every occurrence of `sep`. -/
def splitOnChar (sep : Char) : List Char → List (List Char)
  | [] => [[]]
  | c :: cs =>
    match splitOnChar sep cs with
    | [] => []
    | h :: t => if c = sep then [] :: h :: t else (c :: h) :: t

/-- The four qualifier grammar forms of the spec, decided by splitting on
hyphens: empty, `N`, `N-M`, `N-` and `-M`, with `N` and `M` non-empty digit
runs. -/
def grammarForm (q : List Char) : Bool :=
  q.isEmpty ||
  (match splitOnChar '-' q with
   | [d] => !d.isEmpty && d.all Char.isDigit
   | [a, b] =>
     (!a.isEmpty && a.all Char.isDigit && !b.isEmpty && b.all Char.isDigit) ||
     (!a.isEmpty && a.all Char.isDigit && b.isEmpty) ||
     (a.isEmpty && !b.isEmpty && b.all Char.isDigit)
   | _ => false)

/-! ## Qualified annotation collection

Shallow embedding of `defaultCollector` from
`internal/annotation/annotations.go`.  The input map is modelled as an
association list of key/value pairs (Go maps have unique keys; the
unspecified iteration order is modelled as list order).  The result is a Go
map keyed by the parsed `QualifiedName`, so its assignment overwrites: when
two raw keys parse to the same `QualifiedName` the later insertion wins and
only one entry remains.  The result map is modelled as an association list
with distinct keys, built by insert-or-replace. -/

/-- A parsed annotation key: optional pod ordinal selector and feature name. -/
structure QualifiedName where
  qualifier : List Char
  name : List Char
deriving DecidableEq, Repr

/-- The reserved key namespace, `spoditor.io/`. -/
def nsKeyStart : List Char := "spoditor.io/".toList

/-- Split a list at the last occurrence of `sep`: returns the part before and
the part after that occurrence, or `none` when `sep` does not occur.  This is
the `strings.LastIndex` slicing used by the collector. -/
def splitLastOn (sep : Char) : List Char → Option (List Char × List Char)
  | [] => none
  | x :: xs =>
    match splitLastOn sep xs with
    | some (pre, suf) => some (x :: pre, suf)
    | none => if x = sep then some ([], xs) else none

/-- The parsed `QualifiedName` of a key carrying the reserved namespace:
strip the namespace, then split the remainder at the last separator `_`
into feature name and qualifier. -/
def parseKey (k : List Char) : QualifiedName :=
  let rem := k.drop nsKeyStart.length
  match splitLastOn '_' rem with
  | none => { qualifier := [], name := rem }
  | some (pre, suf) => { qualifier := suf, name := pre }

/-- Insert-or-replace into the collected result (a Go map assignment keyed
by `QualifiedName`). -/
def upsertQN :
    List (QualifiedName × List Char) → QualifiedName → List Char →
      List (QualifiedName × List Char)
  | [], k, v => [(k, v)]
  | (k0, v0) :: rest, k, v =>
    if k0 = k then (k, v) :: rest else (k0, v0) :: upsertQN rest k v

/-- Lookup in the collected result map. -/
def lookupQN : List (QualifiedName × List Char) → QualifiedName → Option (List Char)
  | [], _ => none
  | (k0, v0) :: rest, k => if k0 = k then some v0 else lookupQN rest k

/-- One iteration of the `defaultCollector` loop: a key without the
reserved namespace is skipped, any other key is parsed and its value is
written into the result map. -/
def collectStep (acc : List (QualifiedName × List Char))
    (kv : List Char × List Char) : List (QualifiedName × List Char) :=
  if nsKeyStart.isPrefixOf kv.1 then upsertQN acc (parseKey kv.1) kv.2 else acc

/-- Embedding of `defaultCollector`: keep only keys with the reserved
`spoditor.io/` namespace, strip it, split the remainder at the last
separator `_` into feature name and qualifier, and write the value into the
result map under that pair (last-seen value wins on colliding keys). -/
def collect (anns : List (List Char × List Char)) :
    List (QualifiedName × List Char) :=
  anns.foldl collectStep []

/-- The split rule of the specification, stated as a relation between a raw
key and a parsed name: either the stripped remainder has no separator and is
the whole feature with an empty qualifier, or it is the feature, one
separator, and a separator-free qualifier (which makes the separator the
last one). -/
abbrev parsedAs (k : List Char) (qn : QualifiedName) : Prop :=
  ('_' ∉ k.drop nsKeyStart.length ∧
    qn = { qualifier := [], name := k.drop nsKeyStart.length }) ∨
  (k.drop nsKeyStart.length = qn.name ++ '_' :: qn.qualifier ∧
    '_' ∉ qn.qualifier)

/-! ## StatefulSet pod identity extraction

Two generations of `LabelSSPodIdentifier` coexist in the repository.  The
current one (package `identifier` with named errors) validates the label with
the end-anchored pattern of one capture of arbitrary characters, a hyphen and
a trailing digit run.  The legacy one validates with an
unanchored `MatchString` of the same pattern and discards the `Atoi` error of
the part after the last hyphen.  The input is modelled as the optional value
of the `statefulset.kubernetes.io/pod-name` label. -/

/-- Error cases of the current extractor. -/
inductive ExtractErr where
  | missingLabel
  | invalidFormat
  | ordinalParse
deriving DecidableEq, Repr

/-- Embedding of the anchored submatch of the pod-name pattern (greedy name
capture, hyphen, digit run anchored at the end): returns the name and the
digit run.  The match exists exactly when the maximal trailing digit run is
non-empty, is preceded by a hyphen, and at least one character precedes that
hyphen; in that case the captures are forced, so greediness needs no extra
modelling. -/
def anchoredSSMatch (l : List Char) : Option (List Char × List Char) :=
  let runRev := l.reverse.takeWhile Char.isDigit
  match l.reverse.dropWhile Char.isDigit with
  | c :: nameRev =>
    if c = '-' && !runRev.isEmpty && !nameRev.isEmpty then
      some (nameRev.reverse, runRev.reverse)
    else none
  | [] => none

/-- Embedding of the current `LabelSSPodIdentifier` (anchored regex, named
errors).  `strconv.Atoi` on the matched digit run is modelled as total, so
the source's distinct ordinal-parse failure branch is unreachable here. -/
def labelSSPodIdentifier (label : Option (List Char)) :
    Except ExtractErr (List Char × Int) :=
  match label with
  | none => .error .missingLabel
  | some l =>
    match anchoredSSMatch l with
    | none => .error .invalidFormat
    | some (name, ds) => .ok (name, Int.ofNat (natOfDigits ds))

/-- The spec-side format predicate: the label value decomposes as a non-empty
name, a hyphen and a trailing digit run anchored at the end.  Stated by
splitting on hyphens, independently of the extractor code. -/
def specFormatCheck (l : List Char) : Bool :=
  match (splitOnChar '-' l).reverse with
  | last :: f :: fs =>
    !last.isEmpty && last.all Char.isDigit && !(f.isEmpty && fs.isEmpty)
  | _ => false

/-- The maximal run of digit characters at the end of a list. -/
def trailingDigitRun (l : List Char) : List Char :=
  (l.reverse.takeWhile Char.isDigit).reverse

/-- Error cases of the legacy extractor. -/
inductive LegacyErr where
  | missingLabel
  | unexpectedValue
deriving DecidableEq, Repr

/-- True when some character is followed by a hyphen that is followed by a
digit, i.e. the unanchored pattern of one character, hyphen, digit occurs. -/
def hasDashDigitPair : List Char → Bool
  | a :: rest =>
    (match rest with
     | b :: _ => a = '-' && b.isDigit
     | [] => false) || hasDashDigitPair rest
  | [] => false

/-- Unanchored `MatchString` of the pod-name pattern: a hyphen at position at
least one, immediately followed by a digit. -/
def unanchoredSSMatch (l : List Char) : Bool :=
  match l with
  | [] => false
  | _ :: t => hasDashDigitPair t

/-- `strconv.Atoi` with the error discarded: the Go value result, which is 0
when the input is not a plain digit run. -/
def atoiOrZero (cs : List Char) : Int :=
  if !cs.isEmpty && cs.all Char.isDigit then Int.ofNat (natOfDigits cs) else 0

/-- Embedding of the legacy `LabelSSPodIdentifier`: unanchored validation,
split at the last hyphen, `Atoi` error ignored. -/
def legacyLabelSSPodIdentifier (label : Option (List Char)) :
    Except LegacyErr (List Char × Int) :=
  match label with
  | none => .error .missingLabel
  | some l =>
    if unanchoredSSMatch l then
      match splitLastOn '-' l with
      | some (pre, suf) => .ok (pre, atoiOrZero suf)
      | none => .error .unexpectedValue
    else .error .unexpectedValue

/-! ## The mutation pipeline

A handler owns a parse step over the collected qualified names and a mutate
step over the pod.  The pod type and the configuration type exchanged
between parse and mutate are parameters.  Two pipeline embeddings coexist in
the repository: `applyHandlers` (shared by the webhook `PodArgumentor` and
the current `PodMutator`) continues to the next handler when parse finds no
configuration, while the legacy `PodArgumentor.Handle` loop returns an
allow-unchanged admission response as soon as parse errs or finds no
configuration.  Error wrapping with handler indices is immaterial here and
elided. -/

/-- A registered mutation handler over pod type `σ` and config type `κ`. -/
structure AHandler (σ κ : Type) where
  parse : List (QualifiedName × List Char) → Except (List Char) (Option κ)
  mutate : σ → Int → κ → Except (List Char) σ

/-- Embedding of `applyHandlers` (both `PodArgumentor.applyHandlers` and
`PodMutator.applyHandlers`): run every handler in registration order, skip a
handler whose parse finds no configuration, stop at the first parse or
mutate error. -/
def applyHandlers {σ κ : Type} (anns : List (QualifiedName × List Char))
    (ordinal : Int) : List (AHandler σ κ) → σ → Except (List Char) σ
  | [], pod => .ok pod
  | h :: rest, pod =>
    match h.parse anns with
    | .error e => .error e
    | .ok none => applyHandlers anns ordinal rest pod
    | .ok (some c) =>
      match h.mutate pod ordinal c with
      | .error e => .error e
      | .ok pod2 => applyHandlers anns ordinal rest pod2

/-- Outcome of the legacy `PodArgumentor.Handle` loop: either an allowed
response without a patch, or the mutated pod to be diffed into a patch. -/
inductive LegacyOutcome (σ : Type) where
  | allowedUnchanged
  | patched (pod : σ)
deriving DecidableEq

/-- Embedding of the handler loop of the legacy `PodArgumentor.Handle`: a
parse error or an absent parse result both return the allowed-unchanged
response immediately. -/
def legacyHandle {σ κ : Type} (anns : List (QualifiedName × List Char))
    (ordinal : Int) : List (AHandler σ κ) → σ → LegacyOutcome σ
  | [], pod => .patched pod
  | h :: rest, pod =>
    match h.parse anns with
    | .error _ => .allowedUnchanged
    | .ok none => .allowedUnchanged
    | .ok (some c) =>
      match h.mutate pod ordinal c with
      | .error _ => .allowedUnchanged
      | .ok pod2 => legacyHandle anns ordinal rest pod2

/-- A handler whose parse finds no configuration. -/
def handlerAbsent : AHandler Nat Unit :=
  { parse := fun _ => .ok none, mutate := fun p _ _ => .ok p }

/-- A handler that always parses a configuration and increments the pod. -/
def handlerInc : AHandler Nat Unit :=
  { parse := fun _ => .ok (some ()), mutate := fun p _ _ => .ok (p + 1) }

/-! ## Pod specification data model

Only the fields touched by the two mutation handlers are modelled.  A volume
carries the optional referenced object names of its ConfigMap and Secret
sources. -/

/-- An environment variable of a container. -/
structure EnvVar where
  name : List Char
  value : List Char
deriving DecidableEq, Repr

/-- A container port declaration. -/
structure ContainerPort where
  name : List Char
  containerPort : Int
  hostPort : Int
deriving DecidableEq, Repr

/-- A volume mount of a container. -/
structure VolumeMount where
  name : List Char
  mountPath : List Char
deriving DecidableEq, Repr

/-- A container of a pod specification. -/
structure Container where
  name : List Char
  ports : List ContainerPort
  env : List EnvVar
  volumeMounts : List VolumeMount
deriving DecidableEq, Repr

/-- A pod volume; `configMap` and `secret` hold the referenced object name
when the volume is backed by a ConfigMap or Secret. -/
structure Volume where
  name : List Char
  configMap : Option (List Char)
  secret : Option (List Char)
deriving DecidableEq, Repr

/-- The mutable pod specification. -/
structure PodSpec where
  containers : List Container
  volumes : List Volume
deriving DecidableEq, Repr

/-! ## Host-port handler

Shallow embedding of `HostPortHandler.Mutate` and
`appendEnvVarIfNotExists`.  The per-feature `portEnvVars` map is modelled as
an association list in insertion order (Go map iteration order is
unspecified). -/

/-- Ports declared for one named container in a host-port configuration. -/
structure ContainerPortsConfig where
  name : List Char
  ports : List ContainerPort
deriving DecidableEq, Repr

/-- The JSON body of a host-port configuration. -/
structure PortConfigValue where
  containers : List ContainerPortsConfig
deriving DecidableEq, Repr

/-- A parsed host-port configuration with its pod qualifier. -/
structure PortConfig where
  qualifier : List Char
  cfg : PortConfigValue
deriving DecidableEq, Repr

/-- The pod ordinal environment variable name. -/
def podOrdinalVarName : List Char := "POD_ORDINAL".toList

/-- The naming namespace of port environment variables. -/
def portVarStart : List Char := "PORT_".toList

/-- Embedding of `appendEnvVarIfNotExists`: the first entry with the same
name is replaced in place, otherwise the variable is appended. -/
def appendEnvVarIfNotExists : List EnvVar → EnvVar → List EnvVar
  | [], v => [v]
  | e :: rest, v =>
    if e.name = v.name then v :: rest
    else e :: appendEnvVarIfNotExists rest v

/-- Insert-or-replace into the collected port environment variables (a Go
map assignment). -/
def upsertPev :
    List (List Char × List Char) → List Char → List Char →
      List (List Char × List Char)
  | [], k, v => [(k, v)]
  | (k0, v0) :: rest, k, v =>
    if k0 = k then (k, v) :: rest else (k0, v0) :: upsertPev rest k v

/-- Overwrite the host port of the first port with the given name, if any. -/
def updateFirstPort : List ContainerPort → List Char → Int → Option (List ContainerPort)
  | [], _, _ => none
  | p :: rest, n, hp =>
    if p.name = n then some ({ p with hostPort := hp } :: rest)
    else (updateFirstPort rest n hp).map (p :: ·)

/-- One declared port processed against the current container ports and the
collected port environment variables: declared host ports of at most zero
are skipped; otherwise the effective host port is the declared one plus the
ordinal, written over the first port of the same name or appended as a copy
of the declared port. -/
def applyPortCfg (ordinal : Int)
    (st : List ContainerPort × List (List Char × List Char))
    (pc : ContainerPort) :
    List ContainerPort × List (List Char × List Char) :=
  if pc.hostPort ≤ 0 then st
  else
    let newHP := pc.hostPort + ordinal
    let varName := portVarStart ++ pc.name
    match updateFirstPort st.1 pc.name newHP with
    | some ports2 => (ports2, upsertPev st.2 varName (intToChars newHP))
    | none =>
      (st.1 ++ [{ pc with hostPort := newHP }],
       upsertPev st.2 varName (intToChars newHP))

/-- One matched container processed for one container configuration: all
declared ports are applied, then the pod ordinal variable and every
collected port variable are upserted into the container environment. -/
def mutateContainerPorts (ordinal : Int) (cc : ContainerPortsConfig)
    (c : Container) (pev : List (List Char × List Char)) :
    Container × List (List Char × List Char) :=
  let st := cc.ports.foldl (applyPortCfg ordinal) (c.ports, pev)
  let env1 := appendEnvVarIfNotExists c.env
    { name := podOrdinalVarName, value := intToChars ordinal }
  let env2 := st.2.foldl
    (fun e kv => appendEnvVarIfNotExists e { name := kv.1, value := kv.2 }) env1
  ({ c with ports := st.1, env := env2 }, st.2)

/-- One step of the container loop: a container with the configured name is
mutated and appended to the processed list, any other container is kept. -/
def applyCCStep (ordinal : Int) (cc : ContainerPortsConfig)
    (st : List Container × List (List Char × List Char)) (c : Container) :
    List Container × List (List Char × List Char) :=
  if c.name = cc.name then
    let r := mutateContainerPorts ordinal cc c st.2
    (st.1 ++ [r.1], r.2)
  else (st.1 ++ [c], st.2)

/-- The container loop for one container configuration: containers are kept
in order, those with the configured name are mutated, and the collected
port environment variables accumulate across matched containers. -/
def applyCC (ordinal : Int) (cc : ContainerPortsConfig)
    (cs : List Container) : List Container :=
  (cs.foldl (applyCCStep ordinal cc) ([], [])).1

/-- One step of the configuration loop of `HostPortHandler.Mutate`. -/
def hostPortStep (ordinal : Int) (sp : PodSpec) (cc : ContainerPortsConfig) :
    PodSpec :=
  { sp with containers := applyCC ordinal cc sp.containers }

/-- Embedding of `HostPortHandler.Mutate`: a non-matching qualifier is a
no-op; otherwise every container configuration is applied in order. -/
def hostPortMutate (spec : PodSpec) (ordinal : Int) (m : PortConfig) : PodSpec :=
  if commonPodQualifier ordinal m.qualifier = false then spec
  else m.cfg.containers.foldl (hostPortStep ordinal) spec

/-- The declared port of the round-trip scenario: named http, container port
8080, host-port base 30000. -/
def httpPortDecl : ContainerPort :=
  { name := "http".toList, containerPort := 8080, hostPort := 30000 }

/-- The host-port configuration of the round-trip scenario. -/
def httpPortCfg : PortConfig :=
  { qualifier := [],
    cfg := { containers := [{ name := "web".toList, ports := [httpPortDecl] }] } }

/-- The web container before mutation, with the http port already present. -/
def webBefore : Container :=
  { name := "web".toList, ports := [httpPortDecl], env := [], volumeMounts := [] }

/-- The web container before mutation, with no port declared yet. -/
def webBeforeNoPort : Container :=
  { name := "web".toList, ports := [], env := [], volumeMounts := [] }

/-- The expected http port after mutation at ordinal 2. -/
def httpPortAfter : ContainerPort :=
  { name := "http".toList, containerPort := 8080, hostPort := 30002 }

/-- The expected environment after mutation at ordinal 2. -/
def webEnvAfter : List EnvVar :=
  [{ name := "POD_ORDINAL".toList, value := "2".toList },
   { name := "PORT_http".toList, value := "30002".toList }]

/-- The expected web container after mutation at ordinal 2. -/
def webAfter : Container :=
  { name := "web".toList, ports := [httpPortAfter], env := webEnvAfter,
    volumeMounts := [] }

/-! ## Mount-volume handler

Shallow embedding of `MountHandler.Mutate` from the volumes package. -/

/-- Mounts declared for one named container in a mount configuration. -/
structure MountSource where
  name : List Char
  volumeMounts : List VolumeMount
deriving DecidableEq, Repr

/-- The JSON body of a mount-volume configuration. -/
structure MountConfigValue where
  volumes : List Volume
  containers : List MountSource
deriving DecidableEq, Repr

/-- A parsed mount-volume configuration with its pod qualifier. -/
structure MountConfig where
  qualifier : List Char
  cfg : MountConfigValue
deriving DecidableEq, Repr

/-- One declared volume prepared for insertion: a ConfigMap or Secret
reference gets the ordinal suffix appended to its referenced object name. -/
def rewriteVolume (ordinal : Int) (v : Volume) : Volume :=
  { v with
    configMap := v.configMap.map (· ++ ('-' :: intToChars ordinal)),
    secret := v.secret.map (· ++ ('-' :: intToChars ordinal)) }

/-- Embedding of `MountHandler.Mutate`: a non-matching qualifier is a no-op;
otherwise all declared volumes are appended (with rewritten ConfigMap and
Secret names) and each declared mount group is appended to every container
with the same name. -/
def mountMutate (spec : PodSpec) (ordinal : Int) (m : MountConfig) : PodSpec :=
  if commonPodQualifier ordinal m.qualifier = false then spec
  else
    let spec2 : PodSpec :=
      { spec with
        volumes := spec.volumes ++ m.cfg.volumes.map (rewriteVolume ordinal) }
    m.cfg.containers.foldl
      (fun sp source =>
        { sp with
          containers := sp.containers.map (fun c =>
            if source.name = c.name then
              { c with volumeMounts := c.volumeMounts ++ source.volumeMounts }
            else c) })
      spec2

/-- The mounts the declared sources contribute to a container name, in
declaration order. -/
def mountsFor : List MountSource → List Char → List VolumeMount
  | [], _ => []
  | s :: rest, n => (if s.name = n then s.volumeMounts else []) ++ mountsFor rest n

/-- The pod of end-to-end scenario B: one container named main, no volumes. -/
def mainContainer : Container :=
  { name := "main".toList, ports := [], env := [], volumeMounts := [] }

/-- The declared mount of end-to-end scenario B. -/
def dataMount : VolumeMount :=
  { name := "v".toList, mountPath := "/data".toList }

/-- The ConfigMap-backed volume of end-to-end scenario B. -/
def cfgVolume : Volume :=
  { name := "v".toList, configMap := some "cfg".toList, secret := none }

/-- The expected volume of end-to-end scenario B after mutation at ordinal 2. -/
def cfgVolumeAfter : Volume :=
  { name := "v".toList, configMap := some "cfg-2".toList, secret := none }

/-- The mount configuration of end-to-end scenario B: one ConfigMap-backed
volume named v referencing cfg, mounted into the main container. -/
def scenarioBMountCfg : MountConfig :=
  { qualifier := [],
    cfg := { volumes := [cfgVolume],
             containers := [{ name := "main".toList, volumeMounts := [dataMount] }] } }

/-- Replacement of the first entry with a matching name, stated as its own
recursion for comparison with `appendEnvVarIfNotExists`. -/
def replaceFirstEnv : List EnvVar → EnvVar → List EnvVar
  | [], _ => []
  | e :: rest, v =>
    if e.name = v.name then v :: rest else e :: replaceFirstEnv rest v

/-! ## Theorems -/

example : commonPodQualifier 3 ('1' :: ['-', '5']) = true := by decide

example : commonPodQualifier 3 [] = true := by decide

example : commonPodQualifier 3 ['3'] = true := by decide

example : commonPodQualifier 3 ['4'] = false := by decide

example : commonPodQualifier 3 ['2', '-'] = true := by decide

example : commonPodQualifier 3 ['-', '2'] = false := by decide

example : commonPodQualifier 3 ['5', '-', '2'] = false := by decide

example : commonPodQualifier 3 ['x'] = false := by decide

/-! ## Lemmas about decimal printing and parsing -/

theorem decDigit_toNat {n : Nat} (h : n < 10) : (decDigit n).toNat = 48 + n := by
  interval_cases n <;> decide

theorem decDigit_isDigit {n : Nat} (h : n < 10) : (decDigit n).isDigit = true := by
  interval_cases n <;> decide

theorem natToDigitsAux_shift (n : Nat) :
    ∀ fuel acc, n < fuel → natToDigitsAux fuel n acc = natToDigits n ++ acc := by
  induction n using Nat.strong_induction_on with
  | _ n ih =>
    intro fuel acc hf
    obtain ⟨f, rfl⟩ : ∃ f, fuel = f + 1 := ⟨fuel - 1, by omega⟩
    by_cases h10 : n < 10
    · simp [natToDigitsAux, natToDigits, h10]
    · have h1 : n / 10 < n := Nat.div_lt_self (by omega) (by omega)
      have h2 : n / 10 < f := by omega
      rw [show natToDigitsAux (f + 1) n acc
            = natToDigitsAux f (n / 10) (decDigit (n % 10) :: acc) by
          simp [natToDigitsAux, h10]]
      rw [ih (n / 10) h1 f _ h2]
      have hn : natToDigits n = natToDigits (n / 10) ++ [decDigit (n % 10)] := by
        rw [natToDigits]
        rw [show natToDigitsAux (n + 1) n []
              = natToDigitsAux n (n / 10) [decDigit (n % 10)] by
            simp [natToDigitsAux, h10]]
        exact ih (n / 10) h1 n _ h1
      rw [hn, List.append_assoc]
      rfl

theorem natToDigits_tens {n : Nat} (h : ¬ n < 10) :
    natToDigits n = natToDigits (n / 10) ++ [decDigit (n % 10)] := by
  have h1 : n / 10 < n := Nat.div_lt_self (by omega) (by omega)
  rw [natToDigits]
  rw [show natToDigitsAux (n + 1) n []
        = natToDigitsAux n (n / 10) [decDigit (n % 10)] by
      simp [natToDigitsAux, h]]
  exact natToDigitsAux_shift (n / 10) n _ h1

theorem natToDigits_small {n : Nat} (h : n < 10) : natToDigits n = [decDigit n] := by
  simp [natToDigits, natToDigitsAux, h]

theorem natOfDigits_append_digit (xs : List Char) (c : Char) :
    natOfDigits (xs ++ [c]) = 10 * natOfDigits xs + (c.toNat - 48) := by
  simp [natOfDigits, List.foldl_append]

theorem natOfDigits_natToDigits (n : Nat) : natOfDigits (natToDigits n) = n := by
  induction n using Nat.strong_induction_on with
  | _ n ih =>
    by_cases h10 : n < 10
    · rw [natToDigits_small h10]
      simp [natOfDigits, decDigit_toNat h10]
    · rw [natToDigits_tens h10, natOfDigits_append_digit,
          ih (n / 10) (Nat.div_lt_self (by omega) (by omega))]
      have : n % 10 < 10 := Nat.mod_lt _ (by omega)
      rw [decDigit_toNat this]
      omega

theorem natToDigits_ne_nil (n : Nat) : natToDigits n ≠ [] := by
  by_cases h10 : n < 10
  · rw [natToDigits_small h10]; simp
  · rw [natToDigits_tens h10]; simp

theorem natToDigits_all_digit (n : Nat) : (natToDigits n).all Char.isDigit = true := by
  induction n using Nat.strong_induction_on with
  | _ n ih =>
    by_cases h10 : n < 10
    · rw [natToDigits_small h10]
      simp [decDigit_isDigit h10]
    · rw [natToDigits_tens h10]
      have hm : n % 10 < 10 := Nat.mod_lt _ (by omega)
      simp only [List.all_append]
      rw [ih (n / 10) (Nat.div_lt_self (by omega) (by omega))]
      simp [decDigit_isDigit hm]

theorem atoiDigits_natToDigits (n : Nat) : atoiDigits (natToDigits n) = (n : Int) := by
  rw [atoiDigits, natOfDigits_natToDigits]; rfl

/-! ## takeWhile and dropWhile over an all-digit block -/

theorem takeWhile_all_eq {p : Char → Bool} {xs : List Char} (h : xs.all p = true) :
    xs.takeWhile p = xs := by
  induction xs with
  | nil => rfl
  | cons a l ihl =>
    simp only [List.all_cons, Bool.and_eq_true] at h
    simp [List.takeWhile_cons, h.1, ihl h.2]

theorem dropWhile_all_eq {p : Char → Bool} {xs : List Char} (h : xs.all p = true) :
    xs.dropWhile p = [] := by
  induction xs with
  | nil => rfl
  | cons a l ihl =>
    simp only [List.all_cons, Bool.and_eq_true] at h
    simp [List.dropWhile_cons, h.1, ihl h.2]

theorem takeWhile_append_stop {p : Char → Bool} {xs : List Char} (y : Char)
    (ys : List Char) (hxs : xs.all p = true) (hy : p y = false) :
    (xs ++ y :: ys).takeWhile p = xs := by
  induction xs with
  | nil => simp [List.takeWhile_cons, hy]
  | cons a l ihl =>
    simp only [List.all_cons, Bool.and_eq_true] at hxs
    simp [List.takeWhile_cons, hxs.1, ihl hxs.2]

theorem dropWhile_append_stop {p : Char → Bool} {xs : List Char} (y : Char)
    (ys : List Char) (hxs : xs.all p = true) (hy : p y = false) :
    (xs ++ y :: ys).dropWhile p = y :: ys := by
  induction xs with
  | nil => simp [List.dropWhile_cons, hy]
  | cons a l ihl =>
    simp only [List.all_cons, Bool.and_eq_true] at hxs
    simp [List.dropWhile_cons, hxs.1, ihl hxs.2]

theorem not_dash_of_all_digit {xs : List Char} (h : xs.all Char.isDigit = true) :
    '-' ∉ xs := by
  intro hmem
  have := List.all_eq_true.mp h '-' hmem
  simp [Char.isDigit] at this

theorem splitOnChar_ne_nil (sep : Char) (cs : List Char) : splitOnChar sep cs ≠ [] := by
  induction cs with
  | nil => simp [splitOnChar]
  | cons a l ihl =>
    rw [splitOnChar]
    cases hs : splitOnChar sep l with
    | nil => exact absurd hs ihl
    | cons h t => by_cases hc : a = sep <;> simp [hc]

theorem splitOnChar_no_sep {sep : Char} {cs : List Char} (h : ∀ c ∈ cs, c ≠ sep) :
    splitOnChar sep cs = [cs] := by
  induction cs with
  | nil => rfl
  | cons a l ihl =>
    rw [splitOnChar, ihl (fun c hc => h c (List.mem_cons_of_mem _ hc))]
    simp [h a (List.mem_cons_self _ _)]

theorem splitOnChar_append_sep {sep : Char} (pre : List Char) {ds : List Char}
    (h : ∀ c ∈ ds, c ≠ sep) :
    splitOnChar sep (pre ++ sep :: ds) = splitOnChar sep pre ++ [ds] := by
  induction pre with
  | nil => simp [splitOnChar, splitOnChar_no_sep h]
  | cons a l ihl =>
    rw [List.cons_append, splitOnChar, ihl]
    cases hs : splitOnChar sep l with
    | nil => exact absurd hs (splitOnChar_ne_nil sep l)
    | cons h0 t0 =>
      rw [splitOnChar, hs]
      by_cases hc : a = sep <;> simp [hc]

theorem splitOnChar_eq_single_nil_iff (sep : Char) (cs : List Char) :
    splitOnChar sep cs = [[]] ↔ cs = [] := by
  constructor
  · intro h
    cases cs with
    | nil => rfl
    | cons a l =>
      rw [splitOnChar] at h
      cases hs : splitOnChar sep l with
      | nil => exact absurd hs (splitOnChar_ne_nil sep l)
      | cons h0 t0 =>
        rw [hs] at h
        by_cases hc : a = sep <;> simp [hc] at h
  · intro h; subst h; rfl

theorem takeWhile_all_self (p : Char → Bool) (xs : List Char) :
    (xs.takeWhile p).all p = true := by
  induction xs with
  | nil => rfl
  | cons a l ihl =>
    rw [List.takeWhile_cons]
    by_cases hp : p a = true
    · simp [hp, ihl]
    · simp [hp]

theorem grammarForm_of_matchRange {q : List Char} (h : matchRange q = true) :
    grammarForm q = true := by
  simp only [matchRange] at h
  split at h
  case h_2 => exact absurd h (by simp)
  case h_1 c b heq =>
    simp only [Bool.and_eq_true, decide_eq_true_eq] at h
    obtain ⟨⟨⟨ha, hc⟩, hb⟩, hbd⟩ := h
    subst hc
    set a := q.takeWhile Char.isDigit with hA
    have hq : q = a ++ '-' :: b := by
      conv_lhs => rw [← List.takeWhile_append_dropWhile (p := Char.isDigit) (l := q)]
      rw [heq]
    have hata : a.all Char.isDigit = true := takeWhile_all_self _ _
    have hsplit : splitOnChar '-' q = [a, b] := by
      rw [hq, splitOnChar_append_sep _
            (fun c hcm => by
              intro hcd; subst hcd
              exact not_dash_of_all_digit hbd hcm),
          splitOnChar_no_sep
            (fun c hcm => by
              intro hcd; subst hcd
              exact not_dash_of_all_digit hata hcm)]
      rfl
    rw [grammarForm, hsplit]
    simp only [Bool.or_eq_true]
    right
    simp [ha, hata, hb, hbd]

theorem grammarForm_of_matchExact {q : List Char} (h : matchExact q = true) :
    grammarForm q = true := by
  simp only [matchExact, Bool.and_eq_true] at h
  have hsplit : splitOnChar '-' q = [q] :=
    splitOnChar_no_sep (fun c hc => by
      intro hcd; subst hcd
      exact not_dash_of_all_digit h.2 hc)
  rw [grammarForm, hsplit]
  simp [h.1, h.2]

theorem grammarForm_of_matchLower {q : List Char} (h : matchLower q = true) :
    grammarForm q = true := by
  simp only [matchLower, Bool.and_eq_true, decide_eq_true_eq] at h
  obtain ⟨ha, hr⟩ := h
  set a := q.takeWhile Char.isDigit with hA
  have hq : q = a ++ '-' :: ([] : List Char) := by
    conv_lhs => rw [← List.takeWhile_append_dropWhile (p := Char.isDigit) (l := q)]
    rw [hr]
  have hata : a.all Char.isDigit = true := takeWhile_all_self _ _
  have hsplit : splitOnChar '-' q = [a, []] := by
    rw [hq, splitOnChar_append_sep _ (by intro c hc; cases hc),
        splitOnChar_no_sep
          (fun c hcm => by
            intro hcd; subst hcd
            exact not_dash_of_all_digit hata hcm)]
    rfl
  rw [grammarForm, hsplit]
  simp only [Bool.or_eq_true]
  right
  simp [ha, hata]

theorem grammarForm_of_matchUpper {q : List Char} (h : matchUpper q = true) :
    grammarForm q = true := by
  cases q with
  | nil => exact absurd h (by simp [matchUpper])
  | cons c b =>
    simp only [matchUpper, Bool.and_eq_true, decide_eq_true_eq] at h
    obtain ⟨⟨hc, hb⟩, hbd⟩ := h
    subst hc
    have hsplit : splitOnChar '-' ('-' :: b) = [[], b] := by
      rw [show ('-' :: b : List Char) = [] ++ '-' :: b from rfl,
          splitOnChar_append_sep _
            (fun c hcm => by
              intro hcd; subst hcd
              exact not_dash_of_all_digit hbd hcm)]
      rfl
    rw [grammarForm, hsplit]
    simp only [Bool.or_eq_true]
    right
    simp [hb, hbd]

/-! ## Evaluation lemmas for the matcher on well-formed qualifiers -/

theorem commonPodQualifier_range (o : Int) (a b : Nat) :
    commonPodQualifier o (natToDigits a ++ '-' :: natToDigits b)
      = (decide ((a : Int) ≤ o) && decide (o ≤ (b : Int))) := by
  have hne : natToDigits a ++ '-' :: natToDigits b ≠ [] := by simp
  have htw : (natToDigits a ++ '-' :: natToDigits b).takeWhile Char.isDigit
      = natToDigits a :=
    takeWhile_append_stop '-' _ (natToDigits_all_digit a) (by decide)
  have hdw : (natToDigits a ++ '-' :: natToDigits b).dropWhile Char.isDigit
      = '-' :: natToDigits b :=
    dropWhile_append_stop '-' _ (natToDigits_all_digit a) (by decide)
  have hr : matchRange (natToDigits a ++ '-' :: natToDigits b) = true := by
    rw [matchRange]
    simp only [hdw, htw]
    simp [natToDigits_ne_nil, natToDigits_all_digit]
  rw [commonPodQualifier, if_neg hne, if_pos hr, htw, hdw]
  simp [atoiDigits_natToDigits]

theorem commonPodQualifier_exact (o : Int) (m : Nat) :
    commonPodQualifier o (natToDigits m) = decide (o = (m : Int)) := by
  have hne : natToDigits m ≠ [] := natToDigits_ne_nil m
  have hdw : (natToDigits m).dropWhile Char.isDigit = [] :=
    dropWhile_all_eq (natToDigits_all_digit m)
  have hr : matchRange (natToDigits m) = false := by
    rw [matchRange]
    simp only [hdw]
  have he : matchExact (natToDigits m) = true := by
    simp [matchExact, hne, natToDigits_all_digit]
  rw [commonPodQualifier, if_neg hne, if_neg (by simp [hr]), if_pos he,
      atoiDigits_natToDigits]

/-! ## Claim theorems C1-C3 -/

/-- C1: for every ordinal `o ≥ 0` and non-negative integers `a`, `b`,
`CommonPodQualifier(o, "a-b")` is true iff `a ≤ o ≤ b` when `a ≤ b`, and is
always false (not an error) when `a > b`. -/
theorem claim_C1_range_qualifier (o : Int) (a b : Nat) (h : 0 ≤ o) :
    (a ≤ b →
      (commonPodQualifier o (natToDigits a ++ '-' :: natToDigits b) = true ↔
        (a : Int) ≤ o ∧ o ≤ (b : Int))) ∧
    (b < a →
      commonPodQualifier o (natToDigits a ++ '-' :: natToDigits b) = false) := by
  rw [commonPodQualifier_range o a b]
  constructor
  · intro _
    simp
  · intro hba
    simp only [Bool.and_eq_false_iff, decide_eq_false_iff_not, not_le]
    omega

theorem claim_C1_witness :
    0 ≤ (1 : Int) ∧
    (((0 : Nat) ≤ 2 →
      (commonPodQualifier 1 (natToDigits 0 ++ '-' :: natToDigits 2) = true ↔
        ((0 : Nat) : Int) ≤ 1 ∧ (1 : Int) ≤ ((2 : Nat) : Int))) ∧
     ((2 : Nat) < 0 →
      commonPodQualifier 1 (natToDigits 0 ++ '-' :: natToDigits 2) = false)) :=
  ⟨by decide, claim_C1_range_qualifier 1 0 2 (by decide)⟩

/-- C2: for every ordinal `o ≥ 0`, the empty qualifier matches, the decimal
string of `o` matches, and the decimal string of `o + 1` does not. -/
theorem claim_C2_basic_matches (o : Int) (h : 0 ≤ o) :
    commonPodQualifier o [] = true ∧
    commonPodQualifier o (intToChars o) = true ∧
    commonPodQualifier o (intToChars (o + 1)) = false := by
  lift o to Nat using h with n
  have hi : ∀ m : Nat, intToChars (m : Int) = natToDigits m := by
    intro m
    rw [intToChars, if_neg (by omega)]
    simp
  refine ⟨by simp [commonPodQualifier], ?_, ?_⟩
  · rw [hi n, commonPodQualifier_exact]
    simp
  · rw [show ((n : Int) + 1) = ((n + 1 : Nat) : Int) by push_cast; ring,
        hi (n + 1), commonPodQualifier_exact]
    simp only [decide_eq_false_iff_not]
    push_cast
    omega

theorem claim_C2_witness :
    0 ≤ (3 : Int) ∧
    (commonPodQualifier 3 [] = true ∧
     commonPodQualifier 3 (intToChars 3) = true ∧
     commonPodQualifier 3 (intToChars (3 + 1)) = false) :=
  ⟨by decide, claim_C2_basic_matches 3 (by decide)⟩

/-- C3: every qualifier string matching none of the four grammar forms
(rendered by `grammarForm`, which splits on hyphens following the spec's
description) makes `CommonPodQualifier` return false for every ordinal; the
function is total and never fails, which the `Bool` codomain witnesses. -/
theorem claim_C3_nonmatching_false (o : Int) (q : List Char)
    (h : grammarForm q = false) :
    commonPodQualifier o q = false := by
  have h0 : ¬ q = [] := by
    rintro rfl
    simp [grammarForm] at h
  have hrange : matchRange q = false := by
    cases hm : matchRange q with
    | false => rfl
    | true => rw [grammarForm_of_matchRange hm] at h; cases h
  have hexact : matchExact q = false := by
    cases hm : matchExact q with
    | false => rfl
    | true => rw [grammarForm_of_matchExact hm] at h; cases h
  have hlower : matchLower q = false := by
    cases hm : matchLower q with
    | false => rfl
    | true => rw [grammarForm_of_matchLower hm] at h; cases h
  have hupper : matchUpper q = false := by
    cases hm : matchUpper q with
    | false => rfl
    | true => rw [grammarForm_of_matchUpper hm] at h; cases h
  rw [commonPodQualifier, if_neg h0, if_neg (by simp [hrange]),
      if_neg (by simp [hexact]), if_neg (by simp [hlower]),
      if_neg (by simp [hupper])]

theorem claim_C3_witness :
    grammarForm ['x'] = false ∧ commonPodQualifier 0 ['x'] = false :=
  ⟨by decide, claim_C3_nonmatching_false 0 ['x'] (by decide)⟩

theorem splitLastOn_eq_none {sep : Char} {cs : List Char} :
    splitLastOn sep cs = none ↔ sep ∉ cs := by
  induction cs with
  | nil => simp [splitLastOn]
  | cons a l ihl =>
    rw [splitLastOn]
    cases hs : splitLastOn sep l with
    | some p =>
      simp only []
      constructor
      · intro hc; cases hc
      · intro hc
        exact absurd (ihl.mpr (fun hm => hc (List.mem_cons_of_mem _ hm)))
          (by simp [hs])
    | none =>
      have hnm : sep ∉ l := ihl.mp hs
      by_cases ha : a = sep
      · subst ha; simp
      · rw [if_neg ha]
        constructor
        · intro _
          simp only [List.mem_cons, not_or]
          exact ⟨fun hsa => ha hsa.symm, hnm⟩
        · intro _; rfl

theorem splitLastOn_eq_some {sep : Char} {cs pre suf : List Char}
    (h : splitLastOn sep cs = some (pre, suf)) :
    cs = pre ++ sep :: suf ∧ sep ∉ suf := by
  induction cs generalizing pre with
  | nil => cases h
  | cons a l ihl =>
    rw [splitLastOn] at h
    cases hs : splitLastOn sep l with
    | some p =>
      rw [hs] at h
      simp only [Option.some_inj] at h
      obtain ⟨pre0, suf0⟩ := p
      obtain ⟨rfl, rfl⟩ : pre = a :: pre0 ∧ suf = suf0 := by
        constructor <;> (cases h; rfl)
      obtain ⟨h1, h2⟩ := ihl hs
      exact ⟨by rw [h1]; rfl, h2⟩
    | none =>
      rw [hs] at h
      by_cases ha : a = sep
      · subst ha
        rw [if_pos rfl] at h
        simp only [Option.some_inj] at h
        obtain ⟨rfl, rfl⟩ : pre = [] ∧ suf = l := by
          constructor <;> (cases h; rfl)
        exact ⟨rfl, splitLastOn_eq_none.mp hs⟩
      · rw [if_neg ha] at h; cases h

theorem splitLastOn_append {sep : Char} (pre : List Char) {suf : List Char}
    (h : sep ∉ suf) : splitLastOn sep (pre ++ sep :: suf) = some (pre, suf) := by
  induction pre with
  | nil =>
    rw [List.nil_append, splitLastOn,
        show splitLastOn sep suf = none from splitLastOn_eq_none.mpr h]
    simp
  | cons a l ihl =>
    rw [List.cons_append, splitLastOn, ihl]

example :
    collect [("spoditor.io/mount-volume_0-2".toList, "v".toList)]
      = [({ qualifier := "0-2".toList, name := "mount-volume".toList }, "v".toList)] := by
  decide

example :
    collect [("other.io/mount-volume".toList, "v".toList)] = [] := by decide

theorem mem_upsertQN {m : List (QualifiedName × List Char)}
    {k qn : QualifiedName} {v v2 : List Char}
    (h : (qn, v2) ∈ upsertQN m k v) :
    (qn = k ∧ v2 = v) ∨ (qn, v2) ∈ m := by
  induction m with
  | nil =>
    simp [upsertQN] at h
    exact Or.inl h
  | cons e rest ih =>
    obtain ⟨k0, v0⟩ := e
    rw [upsertQN] at h
    by_cases he : k0 = k
    · rw [if_pos he] at h
      rcases List.mem_cons.mp h with h1 | h1
      · simp only [Prod.mk.injEq] at h1
        exact Or.inl h1
      · exact Or.inr (List.mem_cons_of_mem _ h1)
    · rw [if_neg he] at h
      rcases List.mem_cons.mp h with h1 | h1
      · exact Or.inr (by rw [h1]; exact List.mem_cons_self _ _)
      · rcases ih h1 with h2 | h2
        · exact Or.inl h2
        · exact Or.inr (List.mem_cons_of_mem _ h2)

theorem keys_upsertQN_self (m : List (QualifiedName × List Char))
    (k : QualifiedName) (v : List Char) :
    k ∈ (upsertQN m k v).map Prod.fst := by
  induction m with
  | nil => simp [upsertQN]
  | cons e rest ih =>
    obtain ⟨k0, v0⟩ := e
    rw [upsertQN]
    by_cases he : k0 = k
    · rw [if_pos he]; simp
    · rw [if_neg he]
      simp only [List.map_cons, List.mem_cons]
      exact Or.inr ih

theorem keys_upsertQN_mono {m : List (QualifiedName × List Char)}
    {x : QualifiedName} (k : QualifiedName) (v : List Char)
    (h : x ∈ m.map Prod.fst) : x ∈ (upsertQN m k v).map Prod.fst := by
  induction m with
  | nil => simp at h
  | cons e rest ih =>
    obtain ⟨k0, v0⟩ := e
    rw [upsertQN]
    by_cases he : k0 = k
    · rw [if_pos he]
      simp only [List.map_cons, List.mem_cons] at h ⊢
      rcases h with h1 | h1
      · exact Or.inl (h1.trans he)
      · exact Or.inr h1
    · rw [if_neg he]
      simp only [List.map_cons, List.mem_cons] at h ⊢
      rcases h with h1 | h1
      · exact Or.inl h1
      · exact Or.inr (ih h1)

theorem keys_upsertQN_sub {m : List (QualifiedName × List Char)}
    {x k : QualifiedName} {v : List Char}
    (h : x ∈ (upsertQN m k v).map Prod.fst) :
    x = k ∨ x ∈ m.map Prod.fst := by
  rcases List.mem_map.mp h with ⟨p, hp, hfst⟩
  obtain ⟨qn, v2⟩ := p
  rcases mem_upsertQN hp with ⟨h1, _⟩ | h2
  · exact Or.inl (by rw [← hfst]; exact h1)
  · exact Or.inr (List.mem_map.mpr ⟨(qn, v2), h2, hfst⟩)

theorem nodup_upsertQN {m : List (QualifiedName × List Char)}
    (k : QualifiedName) (v : List Char) (h : (m.map Prod.fst).Nodup) :
    ((upsertQN m k v).map Prod.fst).Nodup := by
  induction m with
  | nil => simp [upsertQN]
  | cons e rest ih =>
    obtain ⟨k0, v0⟩ := e
    rw [List.map_cons, List.nodup_cons] at h
    rw [upsertQN]
    by_cases he : k0 = k
    · rw [if_pos he, List.map_cons, List.nodup_cons]
      exact ⟨he ▸ h.1, h.2⟩
    · rw [if_neg he, List.map_cons, List.nodup_cons]
      refine ⟨?_, ih h.2⟩
      intro hmem
      rcases keys_upsertQN_sub hmem with h1 | h1
      · exact he h1
      · exact h.1 h1

theorem lookupQN_upsert_self (m : List (QualifiedName × List Char))
    (k : QualifiedName) (v : List Char) :
    lookupQN (upsertQN m k v) k = some v := by
  induction m with
  | nil => simp [upsertQN, lookupQN]
  | cons e rest ih =>
    obtain ⟨k0, v0⟩ := e
    rw [upsertQN]
    by_cases he : k0 = k
    · rw [if_pos he, lookupQN, if_pos rfl]
    · rw [if_neg he, lookupQN, if_neg he]
      exact ih

theorem parsedAs_parseKey (k : List Char) : parsedAs k (parseKey k) := by
  cases hs : splitLastOn '_' (k.drop nsKeyStart.length) with
  | none =>
    have hp : parseKey k
        = { qualifier := [], name := k.drop nsKeyStart.length } := by
      simp only [parseKey]
      rw [hs]
    rw [hp]
    exact Or.inl ⟨splitLastOn_eq_none.mp hs, rfl⟩
  | some p =>
    obtain ⟨pre, suf⟩ := p
    have hp : parseKey k = { qualifier := suf, name := pre } := by
      simp only [parseKey]
      rw [hs]
    obtain ⟨h1, h2⟩ := splitLastOn_eq_some hs
    rw [hp]
    exact Or.inr ⟨h1, h2⟩

theorem parseKey_of_parsedAs {k : List Char} {qn : QualifiedName}
    (h : parsedAs k qn) : parseKey k = qn := by
  rcases h with ⟨hnm, hqn⟩ | ⟨hdecomp, hnsuf⟩
  · simp only [parseKey]
    rw [splitLastOn_eq_none.mpr hnm, hqn]
  · simp only [parseKey]
    rw [hdecomp, splitLastOn_append _ hnsuf]

theorem collect_fold_sound (anns : List (List Char × List Char)) :
    ∀ (acc : List (QualifiedName × List Char)) (qn : QualifiedName)
      (v : List Char),
      (qn, v) ∈ anns.foldl collectStep acc →
      (qn, v) ∈ acc ∨
        ∃ k, (k, v) ∈ anns ∧ nsKeyStart.isPrefixOf k = true ∧ parsedAs k qn := by
  induction anns with
  | nil =>
    intro acc qn v h
    exact Or.inl h
  | cons kv rest ih =>
    intro acc qn v h
    rw [List.foldl_cons] at h
    rcases ih _ qn v h with h1 | ⟨k, hk, hkp, hform⟩
    · rw [collectStep] at h1
      by_cases hp : nsKeyStart.isPrefixOf kv.1
      · rw [if_pos hp] at h1
        rcases mem_upsertQN h1 with ⟨hq, hv⟩ | h2
        · subst hv
          refine Or.inr ⟨kv.1, List.mem_cons_self _ _, hp, ?_⟩
          rw [hq]
          exact parsedAs_parseKey kv.1
        · exact Or.inl h2
      · rw [if_neg hp] at h1
        exact Or.inl h1
    · exact Or.inr ⟨k, List.mem_cons_of_mem _ hk, hkp, hform⟩

theorem collect_fold_keys_mono (anns : List (List Char × List Char)) :
    ∀ (acc : List (QualifiedName × List Char)) (x : QualifiedName),
      x ∈ acc.map Prod.fst →
      x ∈ (anns.foldl collectStep acc).map Prod.fst := by
  induction anns with
  | nil =>
    intro acc x h
    exact h
  | cons kv rest ih =>
    intro acc x h
    rw [List.foldl_cons]
    apply ih
    rw [collectStep]
    by_cases hp : nsKeyStart.isPrefixOf kv.1
    · rw [if_pos hp]
      exact keys_upsertQN_mono _ _ h
    · rw [if_neg hp]
      exact h

theorem collect_fold_represented (anns : List (List Char × List Char)) :
    ∀ (acc : List (QualifiedName × List Char)) (k v : List Char),
      (k, v) ∈ anns → nsKeyStart.isPrefixOf k = true →
      parseKey k ∈ (anns.foldl collectStep acc).map Prod.fst := by
  induction anns with
  | nil =>
    intro acc k v h _
    cases h
  | cons kv rest ih =>
    intro acc k v h hp
    rw [List.foldl_cons]
    rcases List.mem_cons.mp h with heq | htail
    · have hk1 : kv.1 = k := by rw [← heq]
      apply collect_fold_keys_mono
      rw [collectStep, if_pos (by rw [hk1]; exact hp), hk1]
      exact keys_upsertQN_self _ _ _
    · exact ih _ k v htail hp

theorem collect_fold_nodup (anns : List (List Char × List Char)) :
    ∀ acc : List (QualifiedName × List Char),
      (acc.map Prod.fst).Nodup →
      ((anns.foldl collectStep acc).map Prod.fst).Nodup := by
  induction anns with
  | nil =>
    intro acc h
    exact h
  | cons kv rest ih =>
    intro acc h
    rw [List.foldl_cons]
    apply ih
    rw [collectStep]
    by_cases hp : nsKeyStart.isPrefixOf kv.1
    · rw [if_pos hp]
      exact nodup_upsertQN _ _ h
    · rw [if_neg hp]
      exact h

theorem collect_append_single (anns : List (List Char × List Char))
    (k v : List Char) :
    collect (anns ++ [(k, v)]) = collectStep (collect anns) (k, v) := by
  rw [collect, collect, List.foldl_append, List.foldl_cons, List.foldl_nil]

/-- C7 counterexample: the keys `spoditor.io/a` and `spoditor.io/a_` both
carry the reserved namespace and both parse to feature `a` with an empty
qualifier, so the collector's result map holds a single entry with the
last-seen value instead of one entry per matching key: the first key's
value is not returned. -/
theorem claim_C7_counterexample :
    parseKey "spoditor.io/a".toList
      = { qualifier := [], name := "a".toList } ∧
    parseKey "spoditor.io/a_".toList
      = { qualifier := [], name := "a".toList } ∧
    nsKeyStart.isPrefixOf "spoditor.io/a".toList = true ∧
    nsKeyStart.isPrefixOf "spoditor.io/a_".toList = true ∧
    collect [("spoditor.io/a".toList, "1".toList),
             ("spoditor.io/a_".toList, "2".toList)]
      = [({ qualifier := [], name := "a".toList }, "2".toList)] := by
  decide

/-- C7 (amended): the collector builds a map.  Every returned entry comes
from some key with the reserved namespace by stripping it and splitting at
the last separator (`parsedAs` renders the spec's split rule); every
matching key is represented under its parsed name; the parsed names of the
result are pairwise distinct (it is a map, so colliding keys leave one
entry); and the value stored under a parsed name is the last-seen one: a
matching key processed last determines it.  The collector is a total
function with no error outcome. -/
theorem claim_C7_collector (anns : List (List Char × List Char)) :
    (∀ qn v, (qn, v) ∈ collect anns →
      ∃ k, (k, v) ∈ anns ∧ nsKeyStart.isPrefixOf k = true ∧ parsedAs k qn) ∧
    (∀ k v qn, (k, v) ∈ anns → nsKeyStart.isPrefixOf k = true →
      parsedAs k qn → ∃ v2, (qn, v2) ∈ collect anns) ∧
    ((collect anns).map Prod.fst).Nodup ∧
    (∀ (k v : List Char) (qn : QualifiedName),
      nsKeyStart.isPrefixOf k = true → parsedAs k qn →
      lookupQN (collect (anns ++ [(k, v)])) qn = some v) := by
  refine ⟨?_, ?_, ?_, ?_⟩
  · intro qn v h
    rcases collect_fold_sound anns [] qn v h with h1 | h2
    · cases h1
    · exact h2
  · intro k v qn hk hp hform
    have hmem := collect_fold_represented anns [] k v hk hp
    rw [parseKey_of_parsedAs hform] at hmem
    rcases List.mem_map.mp hmem with ⟨p, hpmem, hfst⟩
    refine ⟨p.2, ?_⟩
    rw [← hfst]
    exact hpmem
  · exact collect_fold_nodup anns [] (by simp)
  · intro k v qn hp hform
    rw [collect_append_single, collectStep, if_pos hp,
        parseKey_of_parsedAs hform]
    exact lookupQN_upsert_self _ _ _

theorem claim_C7_witness :
    (∃ k, (k, "v".toList)
        ∈ [("spoditor.io/mount-volume_0-2".toList, "v".toList)] ∧
      nsKeyStart.isPrefixOf k = true ∧
      parsedAs k { qualifier := "0-2".toList, name := "mount-volume".toList }) ∧
    lookupQN
      (collect ([("spoditor.io/host-port".toList, "h".toList)] ++
        [("spoditor.io/mount-volume_0-2".toList, "v".toList)]))
      { qualifier := "0-2".toList, name := "mount-volume".toList }
      = some "v".toList :=
  ⟨(claim_C7_collector
      [("spoditor.io/mount-volume_0-2".toList, "v".toList)]).1
      { qualifier := "0-2".toList, name := "mount-volume".toList }
      "v".toList (by decide),
   (claim_C7_collector [("spoditor.io/host-port".toList, "h".toList)]).2.2.2
      "spoditor.io/mount-volume_0-2".toList "v".toList
      { qualifier := "0-2".toList, name := "mount-volume".toList }
      (by decide) (Or.inr ⟨by decide, by decide⟩)⟩

example : labelSSPodIdentifier (some "web-3".toList)
    = .ok ("web".toList, 3) := rfl

example : labelSSPodIdentifier (some "web-1x".toList)
    = .error .invalidFormat := rfl

example : legacyLabelSSPodIdentifier (some "web-3".toList)
    = .ok ("web".toList, 3) := rfl

example : legacyLabelSSPodIdentifier (some "web-1x".toList)
    = .ok ("web".toList, 0) := rfl

example : legacyLabelSSPodIdentifier (some "web-x".toList)
    = .error .unexpectedValue := rfl

theorem anchoredSSMatch_some {l n ds : List Char}
    (h : anchoredSSMatch l = some (n, ds)) :
    l = n ++ '-' :: ds ∧ n ≠ [] ∧ ds ≠ [] ∧ ds.all Char.isDigit = true := by
  simp only [anchoredSSMatch] at h
  cases hdw : l.reverse.dropWhile Char.isDigit with
  | nil => rw [hdw] at h; cases h
  | cons c nameRev =>
    rw [hdw] at h
    have h2 :
        (if (decide (c = '-') && !(l.reverse.takeWhile Char.isDigit).isEmpty
              && !nameRev.isEmpty) = true then
          some (nameRev.reverse, (l.reverse.takeWhile Char.isDigit).reverse)
        else none) = some (n, ds) := h
    by_cases hc :
        (decide (c = '-') && !(l.reverse.takeWhile Char.isDigit).isEmpty
          && !nameRev.isEmpty) = true
    · rw [if_pos hc] at h2
      simp only [Option.some_inj, Prod.mk.injEq] at h2
      obtain ⟨hn, hds⟩ := h2
      simp only [Bool.and_eq_true, decide_eq_true_eq] at hc
      obtain ⟨⟨hcd, hrun⟩, hname⟩ := hc
      subst hcd
      have hsplit : l.reverse
          = l.reverse.takeWhile Char.isDigit ++ '-' :: nameRev := by
        conv_lhs =>
          rw [← List.takeWhile_append_dropWhile (p := Char.isDigit)
                (l := l.reverse)]
        rw [hdw]
      have hl : l = nameRev.reverse ++ '-' :: (l.reverse.takeWhile Char.isDigit).reverse := by
        conv_lhs => rw [← List.reverse_reverse l, hsplit]
        simp [List.reverse_append]
      refine ⟨?_, ?_, ?_, ?_⟩
      · rw [hl, hn, hds]
      · rw [← hn]; simpa using hname
      · rw [← hds]; simpa using hrun
      · rw [← hds]
        rw [List.all_reverse]
        exact takeWhile_all_self _ _
    · rw [if_neg hc] at h2; cases h2

theorem specFormatCheck_of_decomp {n ds : List Char} (hn : n ≠ [])
    (hds : ds ≠ []) (hdig : ds.all Char.isDigit = true) :
    specFormatCheck (n ++ '-' :: ds) = true := by
  have hsplit : splitOnChar '-' (n ++ '-' :: ds) = splitOnChar '-' n ++ [ds] :=
    splitOnChar_append_sep _
      (fun c hcm => by
        intro hcd; subst hcd
        exact not_dash_of_all_digit hdig hcm)
  cases hrev : (splitOnChar '-' n).reverse with
  | nil =>
    exact absurd (by rw [← List.reverse_reverse (splitOnChar '-' n), hrev]; rfl)
      (splitOnChar_ne_nil '-' n)
  | cons f fs =>
    rw [specFormatCheck, hsplit, List.reverse_append, hrev]
    show (!ds.isEmpty && ds.all Char.isDigit && !(f.isEmpty && fs.isEmpty)) = true
    have hne : ¬(f.isEmpty && fs.isEmpty) = true := by
      intro hfe
      simp only [Bool.and_eq_true, List.isEmpty_iff] at hfe
      obtain ⟨rfl, rfl⟩ := hfe
      have : splitOnChar '-' n = [[]] := by
        rw [← List.reverse_reverse (splitOnChar '-' n), hrev]; rfl
      exact hn ((splitOnChar_eq_single_nil_iff '-' n).mp this)
    simp only [Bool.and_eq_true]
    refine ⟨⟨by simpa using hds, hdig⟩, ?_⟩
    cases hfe : (f.isEmpty && fs.isEmpty) with
    | true => exact absurd hfe hne
    | false => rfl

/-! ## Claim theorems C5 and C6 -/

/-- C5 counterexample: the legacy extractor accepts the label value
`web-1x`, which does not match the anchored name-hyphen-digits format, and
returns name `web` with ordinal 0 instead of an invalid-format error. -/
theorem claim_C5_counterexample :
    specFormatCheck "web-1x".toList = false ∧
    legacyLabelSSPodIdentifier (some "web-1x".toList)
      = .ok ("web".toList, 0) :=
  ⟨by decide, rfl⟩

/-- C5 (amended): for the current, anchored extractor, every present label
value that does not decompose as a non-empty name, a hyphen and a trailing
digit run anchored at the end yields the invalid-format error and no name or
ordinal. -/
theorem claim_C5_anchored_invalid (l : List Char)
    (h : specFormatCheck l = false) :
    labelSSPodIdentifier (some l) = .error .invalidFormat := by
  rw [labelSSPodIdentifier]
  cases hm : anchoredSSMatch l with
  | none => rfl
  | some p =>
    obtain ⟨n, ds⟩ := p
    obtain ⟨hl, hn, hds, hdig⟩ := anchoredSSMatch_some hm
    rw [hl, specFormatCheck_of_decomp hn hds hdig] at h
    cases h

theorem claim_C5_witness :
    specFormatCheck "web-x".toList = false ∧
    labelSSPodIdentifier (some "web-x".toList) = .error .invalidFormat :=
  ⟨by decide, claim_C5_anchored_invalid "web-x".toList (by decide)⟩

/-- C6 counterexample: the legacy extractor succeeds on the label value
`a-2b`, which has no trailing digit run at all, returning name `a` and
ordinal 0; so for it a success does not decompose the value into a name and
a trailing digit run. -/
theorem claim_C6_counterexample :
    legacyLabelSSPodIdentifier (some "a-2b".toList) = .ok ("a".toList, 0) ∧
    trailingDigitRun "a-2b".toList = [] :=
  ⟨rfl, by decide⟩

/-- C6 (amended): for the current, anchored extractor the concrete cases of
the claim hold (`web-3`, `redis-cluster-0`, missing label), and every
success decomposes the label value as the returned name, a hyphen and a
digit run whose value is the returned non-negative ordinal. -/
theorem claim_C6_extraction :
    labelSSPodIdentifier (some "web-3".toList) = .ok ("web".toList, 3) ∧
    labelSSPodIdentifier (some "redis-cluster-0".toList)
      = .ok ("redis-cluster".toList, 0) ∧
    labelSSPodIdentifier none = .error .missingLabel ∧
    ∀ l name ord, labelSSPodIdentifier (some l) = .ok (name, ord) →
      0 ≤ ord ∧ ∃ ds, l = name ++ '-' :: ds ∧ ds ≠ [] ∧
        ds.all Char.isDigit = true ∧ ord = Int.ofNat (natOfDigits ds) := by
  refine ⟨rfl, rfl, rfl, ?_⟩
  intro l name ord h
  rw [labelSSPodIdentifier] at h
  cases hm : anchoredSSMatch l with
  | none => rw [hm] at h; cases h
  | some p =>
    obtain ⟨n, ds⟩ := p
    rw [hm] at h
    simp only [Except.ok.injEq, Prod.mk.injEq] at h
    obtain ⟨rfl, rfl⟩ := h
    obtain ⟨hl, hn, hds, hdig⟩ := anchoredSSMatch_some hm
    exact ⟨Int.ofNat_nonneg _, ds, hl, hds, hdig, rfl⟩

theorem claim_C6_witness :
    0 ≤ (3 : Int) ∧ ∃ ds, "web-3".toList = "web".toList ++ '-' :: ds ∧
      ds ≠ [] ∧ ds.all Char.isDigit = true ∧
      (3 : Int) = Int.ofNat (natOfDigits ds) :=
  claim_C6_extraction.2.2.2 "web-3".toList "web".toList 3 rfl

/-- C4 counterexample: in the legacy `PodArgumentor.Handle` loop an absent
parse result terminates the pipeline with an allow-unchanged response, so a
handler registered after the absent one is not run; the `applyHandlers`
pipelines run it. -/
theorem claim_C4_counterexample :
    legacyHandle [] 0 [handlerAbsent, handlerInc] 0
      = LegacyOutcome.allowedUnchanged ∧
    applyHandlers [] 0 [handlerAbsent, handlerInc] 0 = .ok 1 :=
  ⟨rfl, rfl⟩

/-- C4 (amended): in the `applyHandlers` pipelines, a handler whose parse
returns absent is skipped without mutating and the pipeline continues with
the remaining registered handlers unchanged; an absent result never
terminates these pipelines.  (The legacy `Handle` loop instead returns
immediately, per the counterexample.) -/
theorem claim_C4_absent_continues {σ κ : Type}
    (anns : List (QualifiedName × List Char)) (ordinal : Int)
    (h : AHandler σ κ) (rest : List (AHandler σ κ)) (pod : σ)
    (habsent : h.parse anns = .ok none) :
    applyHandlers anns ordinal (h :: rest) pod
      = applyHandlers anns ordinal rest pod := by
  rw [applyHandlers, habsent]

theorem claim_C4_witness :
    handlerAbsent.parse [] = .ok none ∧
    applyHandlers [] 0 [handlerAbsent, handlerInc] 0
      = applyHandlers [] 0 [handlerInc] 0 :=
  ⟨rfl, claim_C4_absent_continues [] 0 handlerAbsent [handlerInc] 0 rfl⟩

/-- C8: at ordinal 2 with base 30000, the effective host port is 30002 and
`PORT_http` is set to `30002` on the matched container; an existing port of
the same name is overwritten in place, and with no such port a copy of the
declared port is appended with the effective value. -/
theorem claim_C8_hostport_roundtrip :
    hostPortMutate { containers := [webBefore], volumes := [] } 2 httpPortCfg
      = { containers := [webAfter], volumes := [] } ∧
    hostPortMutate { containers := [webBeforeNoPort], volumes := [] } 2 httpPortCfg
      = { containers := [webAfter], volumes := [] } := by
  decide

theorem mountFold_containers (sources : List MountSource) :
    ∀ sp : PodSpec,
      sources.foldl
        (fun sp source =>
          { sp with
            containers := sp.containers.map (fun c =>
              if source.name = c.name then
                { c with volumeMounts := c.volumeMounts ++ source.volumeMounts }
              else c) })
        sp
      = { containers := sp.containers.map (fun c =>
            { c with volumeMounts := c.volumeMounts ++ mountsFor sources c.name }),
          volumes := sp.volumes } := by
  induction sources with
  | nil =>
    intro sp
    rw [List.foldl_nil]
    have hmap : sp.containers.map (fun c =>
        { c with volumeMounts := c.volumeMounts ++ mountsFor [] c.name })
        = sp.containers := by
      have hpt : ∀ c : Container,
          ({ c with volumeMounts := c.volumeMounts ++ mountsFor [] c.name }
            : Container) = c := by
        intro c
        simp [mountsFor]
      rw [List.map_congr_left (fun c _ => hpt c)]
      simp
    rw [hmap]
  | cons s rest ih =>
    intro sp
    rw [List.foldl_cons, ih]
    congr 1
    rw [List.map_map]
    apply List.map_congr_left
    intro c _
    simp only [Function.comp_apply]
    by_cases hn : s.name = c.name
    · simp [hn, mountsFor, List.append_assoc]
    · simp [hn, mountsFor]

/-- C9: at a matching ordinal, the mount handler appends every declared
volume with ConfigMap and Secret referenced names rewritten by the ordinal
suffix, and appends each declared mount group to the mounts of every
container matched by exact name; a ConfigMap named `cfg` at ordinal 2
becomes `cfg-2`. -/
theorem claim_C9_mount (spec : PodSpec) (ordinal : Int) (m : MountConfig)
    (h : commonPodQualifier ordinal m.qualifier = true) :
    mountMutate spec ordinal m
      = { containers := spec.containers.map (fun c =>
            { c with volumeMounts :=
                c.volumeMounts ++ mountsFor m.cfg.containers c.name }),
          volumes := spec.volumes ++ m.cfg.volumes.map (rewriteVolume ordinal) } ∧
    rewriteVolume 2 { name := "v".toList, configMap := some "cfg".toList, secret := none }
      = { name := "v".toList, configMap := some "cfg-2".toList, secret := none } := by
  constructor
  · rw [mountMutate, if_neg (by simp [h]), mountFold_containers]
  · decide

theorem appendEnvVar_names_sub {envs : List EnvVar} {v : EnvVar} {x : List Char}
    (h : x ∈ (appendEnvVarIfNotExists envs v).map EnvVar.name) :
    x = v.name ∨ x ∈ envs.map EnvVar.name := by
  induction envs with
  | nil =>
    simp [appendEnvVarIfNotExists] at h
    exact Or.inl h
  | cons e rest ih =>
    rw [appendEnvVarIfNotExists] at h
    by_cases he : e.name = v.name
    · rw [if_pos he] at h
      rcases List.mem_cons.mp h with h1 | h2
      · exact Or.inl h1
      · exact Or.inr (List.mem_cons_of_mem _ h2)
    · rw [if_neg he] at h
      rcases List.mem_cons.mp h with h1 | h2
      · exact Or.inr (by rw [h1]; exact List.mem_cons_self _ _)
      · rcases ih h2 with h3 | h3
        · exact Or.inl h3
        · exact Or.inr (List.mem_cons_of_mem _ h3)

theorem appendEnvVar_nodup {envs : List EnvVar} (v : EnvVar)
    (h : (envs.map EnvVar.name).Nodup) :
    ((appendEnvVarIfNotExists envs v).map EnvVar.name).Nodup := by
  induction envs with
  | nil => simp [appendEnvVarIfNotExists]
  | cons e rest ih =>
    rw [List.map_cons, List.nodup_cons] at h
    rw [appendEnvVarIfNotExists]
    by_cases he : e.name = v.name
    · rw [if_pos he]
      rw [List.map_cons, List.nodup_cons]
      exact ⟨by rw [← he]; exact h.1, h.2⟩
    · rw [if_neg he]
      rw [List.map_cons, List.nodup_cons]
      refine ⟨?_, ih h.2⟩
      intro hmem
      rcases appendEnvVar_names_sub hmem with h1 | h1
      · exact he h1
      · exact h.1 h1

theorem foldl_appendEnvVar_nodup (vs : List EnvVar) :
    ∀ envs : List EnvVar, (envs.map EnvVar.name).Nodup →
      ((vs.foldl appendEnvVarIfNotExists envs).map EnvVar.name).Nodup := by
  induction vs with
  | nil => intro envs h; exact h
  | cons v rest ih =>
    intro envs h
    rw [List.foldl_cons]
    exact ih _ (appendEnvVar_nodup v h)

theorem appendEnvVar_present {envs : List EnvVar} {v : EnvVar}
    (h : v.name ∈ envs.map EnvVar.name) :
    appendEnvVarIfNotExists envs v = replaceFirstEnv envs v ∧
    (appendEnvVarIfNotExists envs v).length = envs.length := by
  induction envs with
  | nil => simp at h
  | cons e rest ih =>
    rw [appendEnvVarIfNotExists, replaceFirstEnv]
    by_cases he : e.name = v.name
    · rw [if_pos he, if_pos he]
      exact ⟨rfl, by simp⟩
    · rw [if_neg he, if_neg he]
      have hmem : v.name ∈ rest.map EnvVar.name := by
        rcases List.mem_cons.mp h with h1 | h1
        · exact absurd h1.symm he
        · exact h1
      obtain ⟨h1, h2⟩ := ih hmem
      exact ⟨by rw [h1], by simp [h2]⟩

theorem appendEnvVar_absent {envs : List EnvVar} {v : EnvVar}
    (h : v.name ∉ envs.map EnvVar.name) :
    appendEnvVarIfNotExists envs v = envs ++ [v] := by
  induction envs with
  | nil => rfl
  | cons e rest ih =>
    rw [List.map_cons, List.mem_cons, not_or] at h
    rw [appendEnvVarIfNotExists, if_neg (fun he => h.1 he.symm), ih h.2]
    rfl

theorem mutateContainerPorts_env (ordinal : Int) (cc : ContainerPortsConfig)
    (c : Container) (pev : List (List Char × List Char)) :
    ∃ vs : List EnvVar,
      (mutateContainerPorts ordinal cc c pev).1.env
        = vs.foldl appendEnvVarIfNotExists c.env := by
  refine ⟨{ name := podOrdinalVarName, value := intToChars ordinal } ::
    (cc.ports.foldl (applyPortCfg ordinal) (c.ports, pev)).2.map
      (fun kv => { name := kv.1, value := kv.2 }), ?_⟩
  rw [List.foldl_cons, List.foldl_map]
  rfl

theorem applyCC_chain (ordinal : Int) (cc : ContainerPortsConfig) :
    ∀ (cs : List Container) (st : List Container × List (List Char × List Char)),
      ∀ c2 ∈ (cs.foldl (applyCCStep ordinal cc) st).1,
        c2 ∈ st.1 ∨ ∃ c1 ∈ cs, ∃ vs : List EnvVar,
          c2.env = vs.foldl appendEnvVarIfNotExists c1.env := by
  intro cs
  induction cs with
  | nil =>
    intro st c2 h
    exact Or.inl h
  | cons c rest ih =>
    intro st c2 h
    rw [List.foldl_cons] at h
    rcases ih (applyCCStep ordinal cc st c) c2 h with h1 | ⟨c1, hc1, vs, hvs⟩
    · rw [applyCCStep] at h1
      by_cases hn : c.name = cc.name
      · rw [if_pos hn] at h1
        rcases List.mem_append.mp h1 with h2 | h2
        · exact Or.inl h2
        · rcases List.mem_singleton.mp h2 with rfl
          obtain ⟨vs, hvs⟩ := mutateContainerPorts_env ordinal cc c st.2
          exact Or.inr ⟨c, List.mem_cons_self _ _, vs, hvs⟩
      · rw [if_neg hn] at h1
        rcases List.mem_append.mp h1 with h2 | h2
        · exact Or.inl h2
        · rcases List.mem_singleton.mp h2 with rfl
          exact Or.inr ⟨c2, List.mem_cons_self _ _, [], rfl⟩
    · exact Or.inr ⟨c1, List.mem_cons_of_mem _ hc1, vs, hvs⟩

theorem hostPortMutate_chain (ordinal : Int) :
    ∀ (ccs : List ContainerPortsConfig) (sp : PodSpec),
      ∀ c2 ∈ (ccs.foldl (hostPortStep ordinal) sp).containers,
        ∃ c1 ∈ sp.containers, ∃ vs : List EnvVar,
          c2.env = vs.foldl appendEnvVarIfNotExists c1.env := by
  intro ccs
  induction ccs with
  | nil =>
    intro sp c2 h
    exact ⟨c2, h, [], rfl⟩
  | cons cc rest ih =>
    intro sp c2 h
    rw [List.foldl_cons] at h
    obtain ⟨cmid, hmid, vs2, hvs2⟩ := ih (hostPortStep ordinal sp cc) c2 h
    rw [hostPortStep] at hmid
    rcases applyCC_chain ordinal cc sp.containers ([], []) cmid hmid with
      h1 | ⟨c1, hc1, vs1, hvs1⟩
    · cases h1
    · refine ⟨c1, hc1, vs1 ++ vs2, ?_⟩
      rw [hvs2, hvs1, List.foldl_append]

/-- C10: `appendEnvVarIfNotExists` replaces the first entry with the same
name in place, preserving list length and position, and appends only when no
entry with the name exists; consequently it preserves name uniqueness of the
environment list, and so does `HostPortHandler.Mutate` for every container.
-/
theorem claim_C10_env_unique :
    (∀ (envs : List EnvVar) (v : EnvVar),
      (envs.map EnvVar.name).Nodup →
      ((appendEnvVarIfNotExists envs v).map EnvVar.name).Nodup) ∧
    (∀ (envs : List EnvVar) (v : EnvVar),
      v.name ∈ envs.map EnvVar.name →
      appendEnvVarIfNotExists envs v = replaceFirstEnv envs v ∧
      (appendEnvVarIfNotExists envs v).length = envs.length) ∧
    (∀ (envs : List EnvVar) (v : EnvVar),
      v.name ∉ envs.map EnvVar.name →
      appendEnvVarIfNotExists envs v = envs ++ [v]) ∧
    (∀ (spec : PodSpec) (ordinal : Int) (m : PortConfig),
      (∀ c ∈ spec.containers, (c.env.map EnvVar.name).Nodup) →
      ∀ c2 ∈ (hostPortMutate spec ordinal m).containers,
        (c2.env.map EnvVar.name).Nodup) := by
  refine ⟨fun envs v h => appendEnvVar_nodup v h,
    fun envs v h => appendEnvVar_present h,
    fun envs v h => appendEnvVar_absent h, ?_⟩
  intro spec ordinal m h c2 hc2
  rw [hostPortMutate] at hc2
  by_cases hq : commonPodQualifier ordinal m.qualifier = false
  · rw [if_pos hq] at hc2
    exact h c2 hc2
  · rw [if_neg hq] at hc2
    obtain ⟨c1, hc1, vs, hvs⟩ :=
      hostPortMutate_chain ordinal m.cfg.containers spec c2 hc2
    rw [hvs]
    exact foldl_appendEnvVar_nodup vs _ (h c1 hc1)

theorem claim_C10_witness :
    ((appendEnvVarIfNotExists
        [{ name := "A".toList, value := "1".toList }]
        { name := "A".toList, value := "2".toList }).map EnvVar.name).Nodup ∧
    (appendEnvVarIfNotExists
        [{ name := "A".toList, value := "1".toList }]
        { name := "A".toList, value := "2".toList }
      = replaceFirstEnv
          [{ name := "A".toList, value := "1".toList }]
          { name := "A".toList, value := "2".toList } ∧
     (appendEnvVarIfNotExists
        [{ name := "A".toList, value := "1".toList }]
        { name := "A".toList, value := "2".toList }).length
      = ([{ name := "A".toList, value := "1".toList }] : List EnvVar).length) ∧
    (appendEnvVarIfNotExists
        [{ name := "A".toList, value := "1".toList }]
        { name := "B".toList, value := "1".toList }
      = [{ name := "A".toList, value := "1".toList }]
        ++ [{ name := "B".toList, value := "1".toList }]) ∧
    (webAfter.env.map EnvVar.name).Nodup :=
  ⟨claim_C10_env_unique.1 _ _ (by decide),
   claim_C10_env_unique.2.1 _ _ (by decide),
   claim_C10_env_unique.2.2.1 _ _ (by decide),
   claim_C10_env_unique.2.2.2 { containers := [webBefore], volumes := [] }
     2 httpPortCfg (by decide) webAfter (by decide)⟩

theorem claim_C9_witness :
    commonPodQualifier 2 scenarioBMountCfg.qualifier = true ∧
    (mountMutate { containers := [mainContainer], volumes := [] } 2 scenarioBMountCfg
      = { containers := ([mainContainer] : List Container).map (fun c =>
            { c with volumeMounts :=
                c.volumeMounts ++ mountsFor scenarioBMountCfg.cfg.containers c.name }),
          volumes := ([] : List Volume)
            ++ scenarioBMountCfg.cfg.volumes.map (rewriteVolume 2) } ∧
     rewriteVolume 2 { name := "v".toList, configMap := some "cfg".toList, secret := none }
      = { name := "v".toList, configMap := some "cfg-2".toList, secret := none }) :=
  ⟨by decide,
   claim_C9_mount { containers := [mainContainer], volumes := [] } 2
     scenarioBMountCfg (by decide)⟩

end Spoditor
